import Mathlib

/-!
Shallow embedding of `based.py`, a heuristic that guesses the load base of a
raw binary image by correlating embedded C-strings with pointer-sized words.

The image is a `List Nat` of byte values.  Python `dict`s (the masked string
index and the `collections.Counter` vote table) are modelled as association
lists with first-occurrence lookup, in-place update of an existing key and
append of a fresh key, which is exactly the observable behaviour of an
insertion-ordered dict with unique keys.  Python integers are `Nat` where the
source value is always non-negative (byte values, decoded pointer words,
offsets) and `Int` where the source can go negative (`base = chk - off`).
-/

namespace Based

/-- Byte order accepted by `int.from_bytes`. -/
inductive Endian where
  | little
  | big
deriving DecidableEq, Repr

/-- Semantics of `int.from_bytes(d, byteorder="little")`: little-endian unsigned decode. -/
def fromBytesLE : List Nat → Nat
  | [] => 0
  | b :: rest => b + 256 * fromBytesLE rest

/-- Semantics of `int.from_bytes(d, byteorder="big")`: big-endian unsigned decode. -/
def fromBytesBE (bs : List Nat) : Nat :=
  bs.foldl (fun acc b => 256 * acc + b) 0

/-- Semantics of `int.from_bytes(d, byteorder=endian)`. -/
def fromBytes : Endian → List Nat → Nat
  | .little, bs => fromBytesLE bs
  | .big, bs => fromBytesBE bs

/-- Fuel-driven unfolding of the `while True` loop of `chunkify`: read
`ps` bytes, stop on a short read, otherwise decode and continue.  One unit of
fuel per loop iteration; `img.length` units are enough whenever `0 < ps`
(each iteration consumes `ps ≥ 1` bytes).  The source loop does not
terminate for `pointer_size = 0`; every caller uses `pointer_size ∈ {4, 8}`. -/
def chunkifyF (e : Endian) (ps : Nat) : Nat → List Nat → List Nat
  | 0, _ => []
  | fuel + 1, img =>
    if img.length < ps then []
    else fromBytes e (img.take ps) :: chunkifyF e ps fuel (img.drop ps)

/-- The generator `chunkify(stream, pointer_size, endian)`: decode the image as a sequence
of non-overlapping `pointer_size`-byte unsigned words, dropping a trailing
partial window. -/
def chunkify (ps : Nat) (e : Endian) (img : List Nat) : List Nat :=
  chunkifyF e ps img.length img

/-- Semantics of `bytes.split(delimiter)` for a single delimiter byte: the list of maximal
delimiter-free runs, including empty ones (so `[[]]` on the empty image, like
`b"".split(b"\x00") == [b""]`). -/
def splitRuns (delim : Nat) : List Nat → List (List Nat)
  | [] => [[]]
  | b :: rest =>
    match splitRuns delim rest with
    | [] => [[]]
    | r :: rs => if b = delim then [] :: r :: rs else (b :: r) :: rs

/-- The offset bookkeeping of `iter_cstrings_raw`: pair each run with `pos`,
then advance `pos` by the run length plus the (single-byte) delimiter
length. -/
def attachPos : Nat → List (List Nat) → List (Nat × List Nat)
  | _, [] => []
  | pos, r :: rs => (pos, r) :: attachPos (pos + r.length + 1) rs

/-- The generator `iter_cstrings_raw(stream, delimiter)`: every delimiter-separated run of
the image together with its starting file offset, in scan order. -/
def iter_cstrings_raw (delimiter : Nat) (img : List Nat) : List (Nat × List Nat) :=
  attachPos 0 (splitRuns delimiter img)

/-- The bytes of `string.printable.encode("ascii")` as a list of byte values: digits,
lowercase, uppercase, punctuation (33–47, 58–64, 91–96, 123–126) and the
whitespace bytes of `" \t\n\r\x0b\x0c"`. -/
def charset : List Nat :=
  List.range' 48 10 ++ List.range' 97 26 ++ List.range' 65 26 ++
    (List.range' 33 15 ++ List.range' 58 7 ++ List.range' 91 6 ++ List.range' 123 4) ++
    [32, 9, 10, 13, 11, 12]

/-- The filter body of `iter_cstrings`: a run is kept iff it is not shorter
than the threshold and no byte falls outside `charset`. -/
def qualifies (threshold : Nat) (s : Nat × List Nat) : Bool :=
  if s.2.length < threshold then false
  else if s.2.any (fun c => !(charset.contains c)) then false
  else true

/-- The generator `iter_cstrings(stream, threshold)`: the qualifying candidate strings.
The source calls `iter_cstrings_raw` with its default delimiter `b"\x00"`. -/
def iter_cstrings (threshold : Nat) (img : List Nat) : List (Nat × List Nat) :=
  (iter_cstrings_raw 0 img).filter (qualifies threshold)

/-- The mask `make_mask(n) = (1 << n) - 1`. -/
def make_mask (n : Nat) : Nat :=
  (1 <<< n) - 1

/-- A candidate string as stored in the index: `(offset, bytes)`. -/
abbrev CStr := Nat × List Nat

/-- The masked string index `M`: insertion-ordered dict from masked offset to
the bucket of candidate strings sharing those masked low bits. -/
abbrev Index := List (Nat × List CStr)

/-- The vote table `c = collections.Counter()`: insertion-ordered dict from
candidate base to its accumulated vote count. -/
abbrev VoteTable := List (Int × Nat)

/-- Dict lookup `M[lo]` guarded by `lo in M`. -/
def bucketFind (M : Index) (k : Nat) : Option (List CStr) :=
  match M with
  | [] => none
  | p :: rest => if p.1 = k then some p.2 else bucketFind rest k

/-- The index-building step of `scan_file`: ensure the bucket exists
(`M[masked_offset] = []` when absent, inserted at the end in dict order) and
`append` the string to it. -/
def bucketAdd (M : Index) (k : Nat) (s : CStr) : Index :=
  match M with
  | [] => [(k, [s])]
  | p :: rest => if p.1 = k then (p.1, p.2 ++ [s]) :: rest else p :: bucketAdd rest k s

/-- The first loop of `scan_file`: index every candidate string under the low
`mask` bits of its offset. -/
def buildIndex (MASK : Nat) (strs : List CStr) : Index :=
  strs.foldl (fun M s => bucketAdd M (s.1 &&& MASK) s) []

/-- The `Counter` update `c[b] += k`: add to an existing key in place, or append
a fresh key with count `k` (a missing `Counter` key reads as 0). -/
def incBy (c : VoteTable) (b : Int) (k : Nat) : VoteTable :=
  match c with
  | [] => [(b, k)]
  | p :: rest => if p.1 = b then (p.1, p.2 + k) :: rest else p :: incBy rest b k

/-- Dict/Counter lookup of a vote count (0 when the base was never voted). -/
def voteCount (c : VoteTable) (b : Int) : Nat :=
  match c with
  | [] => 0
  | p :: rest => if p.1 = b then p.2 else voteCount rest b

/-- The keys of the vote table, in insertion order. -/
def keys (c : VoteTable) : List Int :=
  c.map (·.1)

/-- The vote cast for one candidate string of the matched bucket:
`base = chk - off`, skipped when negative, otherwise `c[base] += w` where the
source passes `w = len(M[lo])`. -/
def voteOne (w : Nat) (chk : Nat) (c : VoteTable) (s : CStr) : VoteTable :=
  if (chk : Int) - (s.1 : Int) < 0 then c
  else incBy c ((chk : Int) - (s.1 : Int)) w

/-- The body of the voting loop of `scan_file` for one pointer word: when the
masked low bits `lo` select a populated bucket, vote once per bucket string,
each vote weighted by the bucket size `len(M[lo])`. -/
def processChunk (M : Index) (MASK : Nat) (c : VoteTable) (chk : Nat) : VoteTable :=
  match bucketFind M (chk &&& MASK) with
  | none => c
  | some B => B.foldl (voteOne B.length chk) c

/-- The whole voting pass of `scan_file` over a pointer-word sequence. -/
def chunksFold (M : Index) (MASK : Nat) (c : VoteTable) (vs : List Nat) : VoteTable :=
  vs.foldl (processChunk M MASK) c

/-- The core `scan_file(stream, endian, pointer_size, mask)`: build the masked string
index from the candidate strings (threshold left at its default 10), then
vote over the decoded pointer words. -/
def scan_file (endian : Endian) (pointer_size mask : Nat) (img : List Nat) : VoteTable :=
  let MASK := make_mask mask
  let M := buildIndex MASK (iter_cstrings 10 img)
  chunksFold M MASK [] (chunkify pointer_size endian img)

/-- Stable insertion (descending by count) used to model Python's stable
`sorted(..., key=count, reverse=True)` underlying `Counter.most_common`:
an element moves in front of another only when its count is strictly
larger, so equal counts keep insertion order. -/
def insertDesc (p : Int × Nat) : List (Int × Nat) → List (Int × Nat)
  | [] => [p]
  | q :: rest => if q.2 ≤ p.2 then p :: q :: rest else q :: insertDesc p rest

/-- Stable sort, descending by vote count. -/
def sortDesc : List (Int × Nat) → List (Int × Nat)
  | [] => []
  | p :: rest => insertDesc p (sortDesc rest)

/-- Semantics of `Counter.most_common()`: the `(base, votes)` pairs in descending vote
order, ties in insertion order. -/
def most_common (c : VoteTable) : List (Int × Nat) :=
  sortDesc c

/-- The selection `result.most_common(1)[0][0]` of `main`: the best base, or `none` for the
`IndexError` the source raises on an empty vote table (the `EmptyResult`
failure of the design). -/
def best (c : VoteTable) : Option Int :=
  (most_common c).head?.map (·.1)

/-- Specification predicate: the pair (pointer word `chk`, candidate string
`s`) matches base `b`, i.e. `chk - s.offset` is non-negative and equals `b`. -/
def matchPred (chk : Nat) (b : Int) (s : CStr) : Bool :=
  decide (0 ≤ (chk : Int) - (s.1 : Int)) && decide ((chk : Int) - (s.1 : Int) = b)

/-- Specification function: the total number of votes one pointer word adds
to base `b` — zero when its masked low bits select no bucket, otherwise the
bucket size times the number of bucket strings matching `b`. -/
def chunkContrib (M : Index) (MASK : Nat) (b : Int) (chk : Nat) : Nat :=
  match bucketFind M (chk &&& MASK) with
  | none => 0
  | some B => B.length * B.countP (matchPred chk b)

/-- Modelled from the spec: the vote rule of §4.4, "for every CandidateString
`s` in that bucket compute `base = value - s.offset`; if `base ≥ 0`,
increment VoteTable[base] by 1" — one vote per (pointer, string) pair.  The
source (`scan_file`) instead increments by `len(M[lo])`; this definition
exists only to be compared against it. -/
def voteOneSpec (chk : Nat) (c : VoteTable) (s : CStr) : VoteTable :=
  if (chk : Int) - (s.1 : Int) < 0 then c
  else incBy c ((chk : Int) - (s.1 : Int)) 1

/-- Modelled from the spec: `scan_file` with the one-vote-per-pair rule of
§4.4 in place of the source's bucket-size weighting. -/
def scan_file_oneVote (endian : Endian) (pointer_size mask : Nat) (img : List Nat) : VoteTable :=
  let MASK := make_mask mask
  let M := buildIndex MASK (iter_cstrings 10 img)
  (chunkify pointer_size endian img).foldl
    (fun c chk =>
      match bucketFind M (chk &&& MASK) with
      | none => c
      | some B => B.foldl (voteOneSpec chk) c)
    []

/-- The synthetic end-to-end image: a delimiter byte, the string
`HELLOWORLD` at offset 1, a delimiter, and the 4-byte little-endian encoding
of 0x1001 = 0x1000 + 1 (a pointer to the string under base 0x1000). -/
def helloImg : List Nat :=
  [0, 72, 69, 76, 76, 79, 87, 79, 82, 76, 68, 0, 1, 16, 0, 0]

/-- An image holding the qualifying string `AAAAAAAAAA` at offset 0 and, at
the aligned offset 12, the little-endian pointer word 1 = base 1 + offset 0.
The base 1 is not a multiple of 2^mask, so the masked lookup misses. -/
def imgC1cex : List Nat :=
  [65, 65, 65, 65, 65, 65, 65, 65, 65, 65, 0, 0, 1, 0, 0, 0]

/-- An image with two qualifying strings (`A`×11 at offset 0, `B`×10 at
offset 12) that collide in one bucket under mask 0, plus the aligned
little-endian pointer word 0x01010112 at offset 24, which matches the second
string with base 0x01010106. -/
def imgC2cex : List Nat :=
  [65, 65, 65, 65, 65, 65, 65, 65, 65, 65, 65, 0,
   66, 66, 66, 66, 66, 66, 66, 66, 66, 66, 0, 0,
   18, 1, 1, 1]

/-! ### Lemmas about the pointer chunker -/

theorem chunkifyF_congr (e : Endian) {ps : Nat} (hps : 0 < ps) :
    ∀ f1 f2 : Nat, ∀ img : List Nat, img.length ≤ f1 → img.length ≤ f2 →
      chunkifyF e ps f1 img = chunkifyF e ps f2 img := by
  intro f1
  induction f1 with
  | zero =>
    intro f2 img h1 _
    have h0 : img.length = 0 := Nat.le_zero.mp h1
    cases f2 with
    | zero => rfl
    | succ g => simp [chunkifyF, h0, hps]
  | succ f ih =>
    intro f2 img h1 h2
    cases f2 with
    | zero =>
      have h0 : img.length = 0 := Nat.le_zero.mp h2
      simp [chunkifyF, h0, hps]
    | succ g =>
      by_cases hlt : img.length < ps
      · simp [chunkifyF, hlt]
      · simp only [chunkifyF, if_neg hlt]
        congr 1
        exact ih g (img.drop ps) (by simp only [List.length_drop]; omega)
          (by simp only [List.length_drop]; omega)

theorem chunkify_eq_nil (e : Endian) {ps : Nat} (hps : 0 < ps) {img : List Nat}
    (h : img.length < ps) : chunkify ps e img = [] := by
  rcases Nat.eq_zero_or_pos img.length with h0 | hpos
  · rw [chunkify, h0]
    rfl
  · obtain ⟨n, hn⟩ : ∃ n, img.length = n + 1 := ⟨img.length - 1, by omega⟩
    rw [chunkify, hn]
    simp only [chunkifyF]
    rw [if_pos h]

theorem chunkify_eq_cons (e : Endian) {ps : Nat} (hps : 0 < ps) {img : List Nat}
    (h : ps ≤ img.length) :
    chunkify ps e img = fromBytes e (img.take ps) :: chunkify ps e (img.drop ps) := by
  obtain ⟨n, hn⟩ : ∃ n, img.length = n + 1 := ⟨img.length - 1, by omega⟩
  rw [chunkify, hn]
  simp only [chunkifyF]
  rw [if_neg (by omega)]
  congr 1
  exact chunkifyF_congr e hps n (img.drop ps).length (img.drop ps)
    (by simp only [List.length_drop]; omega) le_rfl

theorem chunkify_length_aux (e : Endian) {ps : Nat} (hps : 0 < ps) :
    ∀ n : Nat, ∀ img : List Nat, img.length ≤ n →
      (chunkify ps e img).length = img.length / ps := by
  intro n
  induction n with
  | zero =>
    intro img h
    have h0 : img.length = 0 := by omega
    rw [chunkify_eq_nil e hps (by omega), h0, Nat.zero_div]
    rfl
  | succ n ih =>
    intro img h
    by_cases hlt : img.length < ps
    · rw [chunkify_eq_nil e hps hlt]
      simp [Nat.div_eq_of_lt hlt]
    · have hle : ps ≤ img.length := by omega
      rw [chunkify_eq_cons e hps hle]
      simp only [List.length_cons]
      rw [ih (img.drop ps) (by simp only [List.length_drop]; omega), List.length_drop]
      conv_rhs => rw [Nat.div_eq_sub_div hps hle]

theorem chunkify_getElem (e : Endian) {ps : Nat} (hps : 0 < ps) :
    ∀ i : Nat, ∀ img : List Nat, i < img.length / ps →
      (chunkify ps e img)[i]? = some (fromBytes e ((img.drop (i * ps)).take ps)) := by
  intro i
  induction i with
  | zero =>
    intro img hi
    have hle : ps ≤ img.length := by
      by_contra hc
      have := Nat.div_eq_of_lt (show img.length < ps by omega)
      omega
    rw [chunkify_eq_cons e hps hle]
    simp
  | succ i ih =>
    intro img hi
    have hle : ps ≤ img.length := by
      by_contra hc
      have := Nat.div_eq_of_lt (show img.length < ps by omega)
      omega
    rw [chunkify_eq_cons e hps hle, List.getElem?_cons_succ]
    have hsub := Nat.div_eq_sub_div hps hle
    have hi' : i < (img.drop ps).length / ps := by
      rw [List.length_drop]
      omega
    rw [ih (img.drop ps) hi', List.drop_drop]
    congr 3
    ring

/-- C6: for pointer_size ∈ {4, 8} the chunker yields exactly
⌊L / pointer_size⌋ values, the i-th being the unsigned decode (with the
configured endianness) of the non-overlapping window starting at byte
i·pointer_size, so a trailing partial window yields nothing. -/
theorem C6_chunker (e : Endian) (ps : Nat) (img : List Nat) (hps : ps = 4 ∨ ps = 8) :
    (chunkify ps e img).length = img.length / ps ∧
      ∀ i : Nat, i < img.length / ps →
        (chunkify ps e img)[i]? = some (fromBytes e ((img.drop (i * ps)).take ps)) := by
  have hpos : 0 < ps := by rcases hps with h | h <;> omega
  exact ⟨chunkify_length_aux e hpos img.length img le_rfl,
    fun i hi => chunkify_getElem e hpos i img hi⟩

theorem C6_chunker_witness :
    (4 = 4 ∨ 4 = 8) ∧
      (chunkify 4 .little [1, 0, 0, 0, 2, 0]).length = [1, 0, 0, 0, 2, 0].length / 4 ∧
      (chunkify 4 .little [1, 0, 0, 0, 2, 0])[0]? =
        some (fromBytes .little (([1, 0, 0, 0, 2, 0].drop (0 * 4)).take 4)) :=
  ⟨by decide, (C6_chunker .little 4 [1, 0, 0, 0, 2, 0] (by decide)).1,
    (C6_chunker .little 4 [1, 0, 0, 0, 2, 0] (by decide)).2 0 (by decide)⟩

/-! ### Lemmas about the vote table -/

theorem scan_file_eq (e : Endian) (ps mask : Nat) (img : List Nat) :
    scan_file e ps mask img
      = chunksFold (buildIndex (make_mask mask) (iter_cstrings 10 img)) (make_mask mask) []
          (chunkify ps e img) := rfl

theorem voteCount_incBy (c : VoteTable) (b : Int) (k : Nat) (b' : Int) :
    voteCount (incBy c b k) b' = voteCount c b' + (if b' = b then k else 0) := by
  induction c with
  | nil =>
    by_cases h : b = b'
    · subst h
      simp [incBy, voteCount]
    · simp [incBy, voteCount, h, Ne.symm h]
  | cons p rest ih =>
    simp only [incBy]
    by_cases hp : p.1 = b
    · rw [if_pos hp]
      simp only [voteCount]
      by_cases hb' : p.1 = b'
      · rw [if_pos hb', if_pos hb']
        have hbb : b' = b := by rw [← hb', hp]
        rw [if_pos hbb]
      · rw [if_neg hb', if_neg hb']
        have hbb : ¬b' = b := by
          rw [← hp]
          exact fun hh => hb' hh.symm
        rw [if_neg hbb, Nat.add_zero]
    · rw [if_neg hp]
      simp only [voteCount]
      by_cases hb' : p.1 = b'
      · rw [if_pos hb', if_pos hb']
        have hbb : ¬b' = b := by
          rw [← hb']
          exact fun hh => hp hh
        rw [if_neg hbb, Nat.add_zero]
      · rw [if_neg hb', if_neg hb']
        exact ih

theorem voteCount_voteFold (w chk : Nat) (b : Int) :
    ∀ (B : List CStr) (c : VoteTable),
      voteCount (B.foldl (voteOne w chk) c) b
        = voteCount c b + w * B.countP (matchPred chk b) := by
  intro B
  induction B with
  | nil =>
    intro c
    simp [List.countP_nil]
  | cons s B ih =>
    intro c
    rw [List.foldl_cons, ih, List.countP_cons]
    unfold voteOne
    by_cases hneg : (chk : Int) - (s.1 : Int) < 0
    · rw [if_pos hneg]
      have hm : matchPred chk b s = false := by
        simp only [matchPred, Bool.and_eq_false_iff, decide_eq_false_iff_not]
        left
        omega
      rw [hm]
      simp
    · rw [if_neg hneg]
      have hge : 0 ≤ (chk : Int) - (s.1 : Int) := by omega
      rw [voteCount_incBy]
      by_cases heq : (chk : Int) - (s.1 : Int) = b
      · have hm : matchPred chk b s = true := by
          unfold matchPred
          rw [decide_eq_true hge, decide_eq_true heq]
          rfl
        rw [hm, if_pos heq.symm]
        simp
        ring
      · have hm : matchPred chk b s = false := by
          unfold matchPred
          rw [decide_eq_false heq]
          simp
        rw [hm, if_neg (fun hh => heq hh.symm)]
        simp

theorem voteCount_processChunk (M : Index) (MASK : Nat) (c : VoteTable) (chk : Nat) (b : Int) :
    voteCount (processChunk M MASK c chk) b = voteCount c b + chunkContrib M MASK b chk := by
  rcases h : bucketFind M (chk &&& MASK) with _ | B
  · simp [processChunk, chunkContrib, h]
  · simp only [processChunk, chunkContrib, h]
    exact voteCount_voteFold B.length chk b B c

theorem voteCount_chunksFold (M : Index) (MASK : Nat) (b : Int) :
    ∀ (vs : List Nat) (c : VoteTable),
      voteCount (chunksFold M MASK c vs) b
        = voteCount c b + (vs.map (chunkContrib M MASK b)).sum := by
  intro vs
  induction vs with
  | nil =>
    intro c
    simp [chunksFold]
  | cons v vs ih =>
    intro c
    show voteCount (chunksFold M MASK (processChunk M MASK c v) vs) b = _
    rw [ih, voteCount_processChunk]
    simp only [List.map_cons, List.sum_cons]
    omega

/-- C8: the final vote counts are pure accumulations, independent of the
order in which the pointer words are processed: a permutation of the pointer
sequence yields the same count for every base, and extending the sequence
never decreases any count (no entry is decremented or adjusted after being
written). -/
theorem C8_order_invariance (M : Index) (MASK : Nat) (c : VoteTable)
    (vs vs' ws : List Nat) (b : Int) (hperm : vs.Perm vs') :
    voteCount (chunksFold M MASK c vs) b = voteCount (chunksFold M MASK c vs') b ∧
      voteCount (chunksFold M MASK c vs) b ≤ voteCount (chunksFold M MASK c (vs ++ ws)) b := by
  constructor
  · rw [voteCount_chunksFold, voteCount_chunksFold,
      (hperm.map (chunkContrib M MASK b)).sum_eq]
  · rw [voteCount_chunksFold, voteCount_chunksFold, List.map_append, List.sum_append]
    omega

theorem C8_order_invariance_witness :
    voteCount (chunksFold [(0, [(0, [65])])] 0 [] [4, 9]) 4 =
        voteCount (chunksFold [(0, [(0, [65])])] 0 [] [9, 4]) 4 ∧
      voteCount (chunksFold [(0, [(0, [65])])] 0 [] [4, 9]) 4 ≤
        voteCount (chunksFold [(0, [(0, [65])])] 0 [] ([4, 9] ++ [4])) 4 :=
  C8_order_invariance [(0, [(0, [65])])] 0 [] [4, 9] [9, 4] [4] 4 (by decide)

/-- C2 (amended): each matching (pointer, string) pair with non-negative
candidate base contributes `len(M[lo])` votes, not one: appending one more
pointer word whose masked low bits select bucket `B` raises the count of
each base `b` by `B.length` votes per bucket string matching `b`, and
decreases no count. -/
theorem C2_vote_increment (M : Index) (MASK : Nat) (c : VoteTable) (vs : List Nat)
    (v : Nat) (b : Int) (B : List CStr)
    (hB : bucketFind M (v &&& MASK) = some B) :
    voteCount (chunksFold M MASK c (vs ++ [v])) b
      = voteCount (chunksFold M MASK c vs) b + B.length * B.countP (matchPred v b) := by
  rw [voteCount_chunksFold, voteCount_chunksFold, List.map_append, List.sum_append]
  simp only [List.map_cons, List.map_nil, List.sum_cons, List.sum_nil, chunkContrib, hB]
  omega

/-- C2 counterexample: in `imgC2cex` the pointer word 0x01010112 selects a
bucket of two strings, and exactly one of them (the string at offset 12)
yields base 0x01010106; the claim's one-vote-per-pair rule (the spec-modelled
`scan_file_oneVote`) gives that base count 1, but `scan_file` gives it 2,
because each pair is weighted by the bucket size `len(M[lo])`. -/
theorem C2_one_vote_cex :
    bucketFind (buildIndex (make_mask 0) (iter_cstrings 10 imgC2cex)) (16843026 &&& make_mask 0)
        = some [(0, [65, 65, 65, 65, 65, 65, 65, 65, 65, 65, 65]),
                (12, [66, 66, 66, 66, 66, 66, 66, 66, 66, 66])] ∧
      voteCount (scan_file .little 4 0 imgC2cex) 16843014 = 2 ∧
      voteCount (scan_file_oneVote .little 4 0 imgC2cex) 16843014 = 1 := by
  decide

theorem C2_vote_increment_witness :
    bucketFind (buildIndex (make_mask 0) (iter_cstrings 10 imgC2cex)) (16843026 &&& make_mask 0)
        = some [(0, [65, 65, 65, 65, 65, 65, 65, 65, 65, 65, 65]),
                (12, [66, 66, 66, 66, 66, 66, 66, 66, 66, 66])] ∧
      voteCount
          (chunksFold (buildIndex (make_mask 0) (iter_cstrings 10 imgC2cex)) (make_mask 0) []
            ([] ++ [16843026])) 16843014
        = voteCount
            (chunksFold (buildIndex (make_mask 0) (iter_cstrings 10 imgC2cex)) (make_mask 0) []
              []) 16843014
          + [(0, [65, 65, 65, 65, 65, 65, 65, 65, 65, 65, 65]),
             (12, [66, 66, 66, 66, 66, 66, 66, 66, 66, 66])].length
            * [((0 : Nat), [65, 65, 65, 65, 65, 65, 65, 65, 65, 65, 65]),
               (12, [66, 66, 66, 66, 66, 66, 66, 66, 66, 66])].countP
                (matchPred 16843026 16843014) :=
  ⟨by decide,
    C2_vote_increment (buildIndex (make_mask 0) (iter_cstrings 10 imgC2cex)) (make_mask 0) []
      [] 16843026 16843014
      [(0, [65, 65, 65, 65, 65, 65, 65, 65, 65, 65, 65]),
       (12, [66, 66, 66, 66, 66, 66, 66, 66, 66, 66])]
      (by decide)⟩

/-- C3: on the synthetic 16-byte image (delimiter, `HELLOWORLD` at offset 1,
delimiter, little-endian 0x1001) the scan with pointer_size 4, little endian
and mask 12 produces the single-entry vote table {0x1000 ↦ 1}, whose
maximum-count entry is 0x1000, and `best()` returns 0x1000 = 4096. -/
theorem C3_end_to_end :
    scan_file .little 4 12 helloImg = [((4096 : Int), 1)] ∧
      best (scan_file .little 4 12 helloImg) = some 4096 := by
  decide

/-! ### Non-negativity of vote-table keys -/

theorem keys_incBy (b : Int) (w : Nat) :
    ∀ (c : VoteTable) (k : Int), k ∈ keys (incBy c b w) → k ∈ keys c ∨ k = b := by
  intro c
  induction c with
  | nil =>
    intro k hk
    right
    simpa [incBy, keys] using hk
  | cons p rest ih =>
    intro k hk
    by_cases hp : p.1 = b
    · simp only [incBy, if_pos hp, keys, List.map_cons, List.mem_cons] at hk
      rcases hk with rfl | hk
      · left
        simp [keys]
      · left
        simp only [keys, List.map_cons, List.mem_cons]
        right
        exact hk
    · simp only [incBy, if_neg hp, keys, List.map_cons, List.mem_cons] at hk
      rcases hk with rfl | hk
      · left
        simp [keys]
      · rcases ih k hk with h | h
        · left
          simp only [keys, List.map_cons, List.mem_cons]
          right
          exact h
        · right
          exact h

theorem keys_nonneg_voteOne (w chk : Nat) (s : CStr) (c : VoteTable)
    (h : ∀ k ∈ keys c, 0 ≤ k) : ∀ k ∈ keys (voteOne w chk c s), 0 ≤ k := by
  unfold voteOne
  by_cases hneg : (chk : Int) - (s.1 : Int) < 0
  · rw [if_pos hneg]
    exact h
  · rw [if_neg hneg]
    intro k hk
    rcases keys_incBy _ _ c k hk with h1 | h1
    · exact h k h1
    · omega

theorem keys_nonneg_voteFold (w chk : Nat) :
    ∀ (B : List CStr) (c : VoteTable), (∀ k ∈ keys c, 0 ≤ k) →
      ∀ k ∈ keys (B.foldl (voteOne w chk) c), 0 ≤ k := by
  intro B
  induction B with
  | nil =>
    intro c h
    exact h
  | cons s B ih =>
    intro c h
    rw [List.foldl_cons]
    exact ih _ (keys_nonneg_voteOne w chk s c h)

theorem keys_nonneg_processChunk (M : Index) (MASK : Nat) (c : VoteTable) (chk : Nat)
    (h : ∀ k ∈ keys c, 0 ≤ k) : ∀ k ∈ keys (processChunk M MASK c chk), 0 ≤ k := by
  unfold processChunk
  rcases hf : bucketFind M (chk &&& MASK) with _ | B
  · exact h
  · exact keys_nonneg_voteFold B.length chk B c h

theorem keys_nonneg_chunksFold (M : Index) (MASK : Nat) :
    ∀ (vs : List Nat) (c : VoteTable), (∀ k ∈ keys c, 0 ≤ k) →
      ∀ k ∈ keys (chunksFold M MASK c vs), 0 ≤ k := by
  intro vs
  induction vs with
  | nil =>
    intro c h
    exact h
  | cons v vs ih =>
    intro c h
    show ∀ k ∈ keys (chunksFold M MASK (processChunk M MASK c v) vs), 0 ≤ k
    exact ih _ (keys_nonneg_processChunk M MASK c v h)

/-- C7: every key of the vote table computed by the scan is non-negative —
a (pointer, string) pair whose difference `value - offset` is negative is
discarded before it can create or touch an entry. -/
theorem C7_keys_nonneg (e : Endian) (ps mask : Nat) (img : List Nat) (k : Int)
    (hk : k ∈ keys (scan_file e ps mask img)) : 0 ≤ k := by
  rw [scan_file_eq] at hk
  exact keys_nonneg_chunksFold _ _ _ [] (by intro k hk0; cases hk0) k hk

theorem C7_keys_nonneg_witness :
    ((4096 : Int) ∈ keys (scan_file .little 4 12 helloImg)) ∧ (0 : Int) ≤ 4096 :=
  ⟨by decide, C7_keys_nonneg .little 4 12 helloImg 4096 (by decide)⟩

/-! ### The masked string index finds every indexed string -/

theorem make_mask_eq (n : Nat) : make_mask n = 2 ^ n - 1 := by
  simp [make_mask, Nat.shiftLeft_eq]

theorem bucketFind_bucketAdd_self :
    ∀ (M : Index) (k : Nat) (s : CStr),
      bucketFind (bucketAdd M k s) k = some ((bucketFind M k).getD [] ++ [s]) := by
  intro M k s
  induction M with
  | nil => simp [bucketAdd, bucketFind]
  | cons p rest ih =>
    by_cases h : p.1 = k
    · simp [bucketAdd, bucketFind, h]
    · simp [bucketAdd, bucketFind, h, ih]

theorem bucketFind_bucketAdd_ne (k k' : Nat) (s : CStr) (h : k' ≠ k) :
    ∀ M : Index, bucketFind (bucketAdd M k s) k' = bucketFind M k' := by
  intro M
  induction M with
  | nil => simp [bucketAdd, bucketFind, Ne.symm h]
  | cons p rest ih =>
    by_cases hp : p.1 = k
    · have hp' : ¬p.1 = k' := by
        rw [hp]
        exact Ne.symm h
      simp [bucketAdd, bucketFind, hp, hp', Ne.symm h]
    · by_cases hp' : p.1 = k'
      · simp [bucketAdd, bucketFind, hp, hp', h, Ne.symm h]
      · simp [bucketAdd, bucketFind, hp, hp', ih]

theorem buildIndex_mem_aux (MASK : Nat) :
    ∀ (strs : List CStr) (M0 : Index) (s : CStr),
      (s ∈ strs ∨ ∃ B0, bucketFind M0 (s.1 &&& MASK) = some B0 ∧ s ∈ B0) →
      ∃ B, bucketFind (strs.foldl (fun M t => bucketAdd M (t.1 &&& MASK) t) M0)
              (s.1 &&& MASK) = some B ∧ s ∈ B := by
  intro strs
  induction strs with
  | nil =>
    intro M0 s h
    rcases h with h | h
    · cases h
    · exact h
  | cons t rest ih =>
    intro M0 s h
    rw [List.foldl_cons]
    apply ih
    rcases h with h | ⟨B0, hfind, hmem⟩
    · rcases List.mem_cons.mp h with rfl | hmem
      · right
        exact ⟨(bucketFind M0 (s.1 &&& MASK)).getD [] ++ [s],
          bucketFind_bucketAdd_self M0 _ s, by simp⟩
      · left
        exact hmem
    · right
      by_cases hk : s.1 &&& MASK = t.1 &&& MASK
      · refine ⟨(bucketFind M0 (t.1 &&& MASK)).getD [] ++ [t], ?_, ?_⟩
        · rw [hk]
          exact bucketFind_bucketAdd_self M0 _ t
        · rw [← hk, hfind]
          simp [hmem]
      · exact ⟨B0, by rw [bucketFind_bucketAdd_ne _ _ t hk M0]; exact hfind, hmem⟩

theorem buildIndex_mem (MASK : Nat) (strs : List CStr) (s : CStr) (h : s ∈ strs) :
    ∃ B, bucketFind (buildIndex MASK strs) (s.1 &&& MASK) = some B ∧ s ∈ B :=
  buildIndex_mem_aux MASK strs [] s (Or.inl h)

/-- C1 (amended): if the image holds a qualifying candidate string `s` and
an aligned pointer word decoding to `base + s.offset`, and additionally the
low `mask` bits of `base` are zero (so that the masked bucket lookup can
find `s`), then the scan with the same mask, pointer size and endianness
gives `base` a non-zero vote count. -/
theorem C1_pointer_hit (e : Endian) (ps mask : Nat) (img : List Nat) (i base : Nat)
    (s : Nat × List Nat) (hps : ps = 4 ∨ ps = 8)
    (hs : s ∈ iter_cstrings 10 img)
    (hchunk : (chunkify ps e img)[i]? = some (base + s.1))
    (halign : base % 2 ^ mask = 0) :
    0 < voteCount (scan_file e ps mask img) (base : Int) := by
  have hv : (base + s.1) ∈ chunkify ps e img := List.getElem?_mem hchunk
  obtain ⟨B, hB, hsB⟩ := buildIndex_mem (make_mask mask) (iter_cstrings 10 img) s hs
  have hmask : (base + s.1) &&& make_mask mask = s.1 &&& make_mask mask := by
    rw [make_mask_eq, Nat.and_pow_two_sub_one_eq_mod, Nat.and_pow_two_sub_one_eq_mod,
      Nat.add_mod, halign, Nat.zero_add, Nat.mod_mod_of_dvd s.1 dvd_rfl]
  have hcontrib :
      1 ≤ chunkContrib (buildIndex (make_mask mask) (iter_cstrings 10 img)) (make_mask mask)
            (base : Int) (base + s.1) := by
    unfold chunkContrib
    rw [hmask, hB]
    have hcount : 0 < B.countP (matchPred (base + s.1) (base : Int)) := by
      rw [List.countP_pos_iff]
      refine ⟨s, hsB, ?_⟩
      unfold matchPred
      have h1 : (0 : Int) ≤ ((base + s.1 : Nat) : Int) - (s.1 : Int) := by
        push_cast
        omega
      have h2 : ((base + s.1 : Nat) : Int) - (s.1 : Int) = (base : Int) := by
        push_cast
        omega
      rw [decide_eq_true h1, decide_eq_true h2]
      rfl
    have hlen : 0 < B.length := List.length_pos.mpr (List.ne_nil_of_mem hsB)
    exact Nat.mul_pos hlen hcount
  rw [scan_file_eq, voteCount_chunksFold]
  have hmem2 := List.mem_map_of_mem
    (chunkContrib (buildIndex (make_mask mask) (iter_cstrings 10 img)) (make_mask mask)
      (base : Int)) hv
  have hle := List.single_le_sum (fun (x : Nat) _ => Nat.zero_le x) _ hmem2
  omega

/-- C1 counterexample: `imgC1cex` contains the qualifying string at offset 0
and, at the aligned offset 12, a pointer word with value 1 = base 1 +
offset 0 (base non-negative), yet the scan with the same mask (4), pointer
size and endianness leaves base 1 with count 0 — indeed the vote table is
empty — because 1 is not a multiple of 2^4 and the masked lookup misses. -/
theorem C1_pointer_hit_cex :
    ((0, [65, 65, 65, 65, 65, 65, 65, 65, 65, 65]) ∈ iter_cstrings 10 imgC1cex) ∧
      (chunkify 4 .little imgC1cex)[3]? = some (1 + 0) ∧
      voteCount (scan_file .little 4 4 imgC1cex) ((1 : Nat) : Int) = 0 ∧
      keys (scan_file .little 4 4 imgC1cex) = [] := by
  decide

theorem C1_pointer_hit_witness :
    ((1, [72, 69, 76, 76, 79, 87, 79, 82, 76, 68]) ∈ iter_cstrings 10 helloImg) ∧
      (chunkify 4 .little helloImg)[3]? = some (4096 + 1) ∧
      4096 % 2 ^ 12 = 0 ∧
      0 < voteCount (scan_file .little 4 12 helloImg) ((4096 : Nat) : Int) :=
  ⟨by decide, by decide, by decide,
    C1_pointer_hit .little 4 12 helloImg 3 4096 (1, [72, 69, 76, 76, 79, 87, 79, 82, 76, 68])
      (by decide) (by decide) (by decide) (by decide)⟩

/-! ### The candidate-string filter -/

theorem qualifies_iff (t : Nat) (s : Nat × List Nat) :
    qualifies t s = true ↔ t ≤ s.2.length ∧ ∀ c ∈ s.2, c ∈ charset := by
  unfold qualifies
  rcases Nat.lt_or_ge s.2.length t with h | h
  · rw [if_pos h]
    simp only [Bool.false_eq_true, false_iff]
    intro hcon
    omega
  · rw [if_neg (by omega)]
    by_cases h2 : s.2.any (fun c => !(charset.contains c)) = true
    · rw [if_pos h2]
      simp only [Bool.false_eq_true, false_iff]
      intro hcon
      obtain ⟨c, hc, hcc⟩ := List.any_eq_true.mp h2
      have hmem : charset.contains c = true := List.elem_iff.mpr (hcon.2 c hc)
      rw [hmem] at hcc
      simp at hcc
    · rw [if_neg h2]
      simp only [true_iff]
      refine ⟨h, fun c hc => ?_⟩
      by_contra hcc
      apply h2
      refine List.any_eq_true.mpr ⟨c, hc, ?_⟩
      cases hb : charset.contains c with
      | false => rfl
      | true => exact absurd (List.elem_iff.mp hb) hcc

/-- C5: for every image, delimiter and threshold, a delimiter-separated run
is yielded as a candidate string iff its length reaches the threshold and
every byte lies in the printable set `string.printable`; a short run, or one
with a byte outside that set, never appears (`iter_cstrings` is exactly this
filter at the source's default delimiter 0x00). -/
theorem C5_candidate_filter (delim t : Nat) (img : List Nat) (s : Nat × List Nat) :
    s ∈ (iter_cstrings_raw delim img).filter (qualifies t) ↔
      s ∈ iter_cstrings_raw delim img ∧ t ≤ s.2.length ∧ ∀ c ∈ s.2, c ∈ charset := by
  rw [List.mem_filter, qualifies_iff]

theorem C5_candidate_filter_witness :
    (0, [65, 65, 65, 65, 65, 65, 65, 65, 65, 65])
      ∈ (iter_cstrings_raw 0 [65, 65, 65, 65, 65, 65, 65, 65, 65, 65, 0]).filter
          (qualifies 10) :=
  (C5_candidate_filter 0 10 [65, 65, 65, 65, 65, 65, 65, 65, 65, 65, 0]
      (0, [65, 65, 65, 65, 65, 65, 65, 65, 65, 65])).mpr (by decide)

/-! ### Runs are made of image bytes -/

theorem splitRuns_ne_nil (delim : Nat) : ∀ img : List Nat, splitRuns delim img ≠ [] := by
  intro img
  cases img with
  | nil => simp [splitRuns]
  | cons b rest =>
    simp only [splitRuns]
    cases hsplit : splitRuns delim rest with
    | nil => simp
    | cons r0 rs =>
      by_cases hb : b = delim <;> simp [hb]

theorem splitRuns_bytes_mem (delim : Nat) :
    ∀ (img : List Nat), ∀ r ∈ splitRuns delim img, ∀ c ∈ r, c ∈ img := by
  intro img
  induction img with
  | nil =>
    intro r hr c hc
    simp only [splitRuns, List.mem_singleton] at hr
    subst hr
    cases hc
  | cons b rest ih =>
    intro r hr c hc
    cases hsplit : splitRuns delim rest with
    | nil => exact absurd hsplit (splitRuns_ne_nil delim rest)
    | cons r0 rs =>
      simp only [splitRuns, hsplit] at hr
      by_cases hb : b = delim
      · rw [if_pos hb] at hr
        rcases List.mem_cons.mp hr with rfl | hr'
        · cases hc
        · have := ih r (by rw [hsplit]; exact hr') c hc
          exact List.mem_cons_of_mem b this
      · rw [if_neg hb] at hr
        rcases List.mem_cons.mp hr with rfl | hr'
        · rcases List.mem_cons.mp hc with heq | hc'
          · rw [heq]
            exact List.mem_cons_self b rest
          · have := ih r0 (by rw [hsplit]; exact List.mem_cons_self r0 rs) c hc'
            exact List.mem_cons_of_mem b this
        · have := ih r (by rw [hsplit]; exact List.mem_cons_of_mem r0 hr') c hc
          exact List.mem_cons_of_mem b this

theorem attachPos_snd_mem :
    ∀ (rs : List (List Nat)) (pos : Nat) (p : Nat × List Nat),
      p ∈ attachPos pos rs → p.2 ∈ rs := by
  intro rs
  induction rs with
  | nil =>
    intro pos p h
    cases h
  | cons r rs ih =>
    intro pos p h
    rcases List.mem_cons.mp h with rfl | h'
    · exact List.mem_cons_self r rs
    · exact List.mem_cons_of_mem r (ih _ p h')

theorem no_printable_no_candidates (img : List Nat) (h : ∀ b ∈ img, b ∉ charset) :
    iter_cstrings 10 img = [] := by
  unfold iter_cstrings
  rw [List.filter_eq_nil_iff]
  intro p hp hq
  rw [qualifies_iff] at hq
  obtain ⟨hlen, hall⟩ := hq
  obtain ⟨c, hc⟩ : ∃ c, c ∈ p.2 :=
    List.exists_mem_of_length_pos (by omega)
  have hcimg : c ∈ img :=
    splitRuns_bytes_mem 0 img p.2 (attachPos_snd_mem _ _ _ hp) c hc
  exact h c hcimg (hall c hc)

theorem chunksFold_no_hit (M : Index) (MASK : Nat) :
    ∀ (vs : List Nat) (c : VoteTable),
      (∀ v ∈ vs, bucketFind M (v &&& MASK) = none) → chunksFold M MASK c vs = c := by
  intro vs
  induction vs with
  | nil =>
    intro c _
    rfl
  | cons v vs ih =>
    intro c h
    have h1 : bucketFind M (v &&& MASK) = none := h v (List.mem_cons_self v vs)
    have h2 : ∀ w ∈ vs, bucketFind M (w &&& MASK) = none :=
      fun w hw => h w (List.mem_cons_of_mem v hw)
    show chunksFold M MASK (processChunk M MASK c v) vs = c
    rw [ih _ h2]
    simp [processChunk, h1]

/-- C4: an image made only of non-printable bytes yields no candidate
strings, hence an empty vote table, and selecting the best base from it
fails (the `IndexError` of `most_common(1)[0]`, modelled as `none` — the
design's `EmptyResult`), rather than producing a placeholder base. -/
theorem C4_empty_result (e : Endian) (ps mask : Nat) (img : List Nat)
    (h : ∀ b ∈ img, b ∉ charset) :
    iter_cstrings 10 img = [] ∧ scan_file e ps mask img = [] ∧
      best (scan_file e ps mask img) = none := by
  have hstr := no_printable_no_candidates img h
  have hscan : scan_file e ps mask img = [] := by
    rw [scan_file_eq, hstr]
    exact chunksFold_no_hit _ _ _ [] (by intro v _; rfl)
  refine ⟨hstr, hscan, ?_⟩
  rw [hscan]
  rfl

theorem C4_empty_result_witness :
    (∀ b ∈ List.replicate 12 255, b ∉ charset) ∧
      iter_cstrings 10 (List.replicate 12 255) = [] ∧
      scan_file .little 4 12 (List.replicate 12 255) = [] ∧
      best (scan_file .little 4 12 (List.replicate 12 255)) = none :=
  ⟨by decide, C4_empty_result .little 4 12 (List.replicate 12 255) (by decide)⟩

/-- C9: the scan is total — every stage is a terminating function of the
embedding — and degenerate inputs produce empty results, not errors: when no
run qualifies the candidate sequence is empty, and when no pointer word's
masked low bits select a populated bucket the scan returns the empty vote
table. -/
theorem C9_total_scan (e : Endian) (ps mask t : Nat) (img : List Nat)
    (hps : ps = 4 ∨ ps = 8) :
    ((∀ r ∈ iter_cstrings_raw 0 img, qualifies t r = false) → iter_cstrings t img = []) ∧
      ((∀ v ∈ chunkify ps e img,
          bucketFind (buildIndex (make_mask mask) (iter_cstrings 10 img))
            (v &&& make_mask mask) = none) →
        scan_file e ps mask img = []) := by
  constructor
  · intro h
    unfold iter_cstrings
    rw [List.filter_eq_nil_iff]
    intro a ha
    rw [h a ha]
    simp
  · intro h
    rw [scan_file_eq]
    exact chunksFold_no_hit _ _ _ [] h

theorem C9_total_scan_witness :
    (4 = 4 ∨ 4 = 8) ∧ iter_cstrings 10 [255, 255, 255, 255] = [] ∧
      scan_file .little 4 12 [255, 255, 255, 255] = [] :=
  ⟨by decide,
    (C9_total_scan .little 4 12 10 [255, 255, 255, 255] (by decide)).1 (by decide),
    (C9_total_scan .little 4 12 10 [255, 255, 255, 255] (by decide)).2 (by decide)⟩

/-! ### Faithfulness of the raw string extractor -/

theorem attachPos_eq_map :
    ∀ (rs : List (List Nat)) (pos : Nat),
      attachPos pos rs = (attachPos 0 rs).map (fun q => (q.1 + pos, q.2)) := by
  intro rs
  induction rs with
  | nil =>
    intro pos
    rfl
  | cons r rs ih =>
    intro pos
    show (pos, r) :: attachPos (pos + r.length + 1) rs
        = ((0, r) :: attachPos (0 + r.length + 1) rs).map (fun q => (q.1 + pos, q.2))
    rw [List.map_cons]
    congr 1
    · simp
    · rw [ih (pos + r.length + 1), ih (0 + r.length + 1), List.map_map]
      apply List.map_congr_left
      intro q _
      simp only [Function.comp_apply]
      refine Prod.ext ?_ rfl
      simp only
      omega

theorem attachPos_fst_ge :
    ∀ (rs : List (List Nat)) (pos : Nat) (q : Nat × List Nat),
      q ∈ attachPos pos rs → pos ≤ q.1 := by
  intro rs
  induction rs with
  | nil =>
    intro pos q h
    cases h
  | cons r rs ih =>
    intro pos q h
    rcases List.mem_cons.mp h with rfl | h'
    · exact le_rfl
    · have := ih (pos + r.length + 1) q h'
      omega

theorem attachPos_fst_lt :
    ∀ (rs : List (List Nat)) (pos : Nat),
      List.Pairwise (fun p q : Nat × List Nat => p.1 < q.1) (attachPos pos rs) := by
  intro rs
  induction rs with
  | nil =>
    intro pos
    exact List.Pairwise.nil
  | cons r rs ih =>
    intro pos
    refine List.Pairwise.cons ?_ (ih (pos + r.length + 1))
    intro q hq
    have := attachPos_fst_ge rs (pos + r.length + 1) q hq
    omega

theorem raw_elem (delim : Nat) :
    ∀ (img : List Nat) (p : Nat × List Nat), p ∈ iter_cstrings_raw delim img →
      p.2 = (img.drop p.1).take p.2.length ∧
      p.1 + p.2.length ≤ img.length ∧
      (p.1 = 0 ∨ img[p.1 - 1]? = some delim) := by
  intro img
  induction img with
  | nil =>
    intro p hp
    have hp' : p = (0, ([] : List Nat)) := by
      simpa [iter_cstrings_raw, splitRuns, attachPos] using hp
    rw [hp']
    simp
  | cons b rest ih =>
    intro p hp
    rw [iter_cstrings_raw] at hp
    cases hsplit : splitRuns delim rest with
    | nil => exact absurd hsplit (splitRuns_ne_nil delim rest)
    | cons r0 rs =>
      by_cases hb : b = delim
      · have hs2 : splitRuns delim (b :: rest) = [] :: r0 :: rs := by
          simp only [splitRuns, hsplit]
          rw [if_pos hb]
        rw [hs2] at hp
        rcases List.mem_cons.mp hp with heq | hp'
        · rw [heq]
          simp
        · rw [attachPos_eq_map] at hp'
          obtain ⟨q, hq, hpq⟩ := List.mem_map.mp hp'
          have hqraw : q ∈ iter_cstrings_raw delim rest := by
            rw [iter_cstrings_raw, hsplit]
            exact hq
          obtain ⟨hfaith, hbound, hoff⟩ := ih q hqraw
          have hp1 : p.1 = q.1 + 1 := by
            rw [← hpq]
            simp
          have hp2 : p.2 = q.2 := by
            rw [← hpq]
          refine ⟨?_, ?_, ?_⟩
          · rw [hp2, hp1, List.drop_succ_cons]
            exact hfaith
          · rw [hp2, hp1]
            simp only [List.length_cons]
            omega
          · right
            rw [hp1]
            have hm1 : q.1 + 1 - 1 = q.1 := by omega
            rw [hm1]
            cases hq1 : q.1 with
            | zero =>
              rw [List.getElem?_cons_zero, hb]
            | succ m =>
              rw [List.getElem?_cons_succ]
              rcases hoff with h0 | hdel
              · exact absurd h0 (by omega)
              · have hm : m = q.1 - 1 := by omega
                rw [hm]
                exact hdel
      · have hs2 : splitRuns delim (b :: rest) = (b :: r0) :: rs := by
          simp only [splitRuns, hsplit]
          rw [if_neg hb]
        rw [hs2] at hp
        rcases List.mem_cons.mp hp with heq | hp'
        · have h0raw : ((0, r0) : Nat × List Nat) ∈ iter_cstrings_raw delim rest := by
            rw [iter_cstrings_raw, hsplit]
            exact List.mem_cons_self _ _
          obtain ⟨hfaith, hbound, _⟩ := ih (0, r0) h0raw
          simp only [List.drop_zero] at hfaith
          rw [heq]
          refine ⟨?_, ?_, Or.inl rfl⟩
          · show b :: r0 = ((b :: rest).drop 0).take (b :: r0).length
            simp only [List.drop_zero, List.length_cons, List.take_succ_cons]
            rw [← hfaith]
          · simp only [List.length_cons]
            have hbound' : 0 + r0.length ≤ rest.length := hbound
            omega
        · rw [attachPos_eq_map] at hp'
          obtain ⟨q, hq, hpq⟩ := List.mem_map.mp hp'
          have hq2 : ((q.1 + (0 + r0.length + 1), q.2) : Nat × List Nat)
              ∈ attachPos (0 + r0.length + 1) rs := by
            rw [attachPos_eq_map]
            exact List.mem_map.mpr ⟨q, hq, rfl⟩
          have hqraw : ((q.1 + (0 + r0.length + 1), q.2) : Nat × List Nat)
              ∈ iter_cstrings_raw delim rest := by
            rw [iter_cstrings_raw, hsplit]
            exact List.mem_cons_of_mem _ hq2
          obtain ⟨hfaith, hbound, hoff⟩ := ih _ hqraw
          have hp1 : p.1 = q.1 + (0 + (b :: r0).length + 1) := by
            rw [← hpq]
          have hp2 : p.2 = q.2 := by
            rw [← hpq]
          have hfaith' : q.2 = (rest.drop (q.1 + (0 + r0.length + 1))).take q.2.length :=
            hfaith
          have hbound' : q.1 + (0 + r0.length + 1) + q.2.length ≤ rest.length := hbound
          refine ⟨?_, ?_, ?_⟩
          · rw [hp2, hp1]
            have hd : q.1 + (0 + (b :: r0).length + 1) = (q.1 + (0 + r0.length + 1)) + 1 := by
              simp only [List.length_cons]
              omega
            rw [hd, List.drop_succ_cons]
            exact hfaith'
          · rw [hp2, hp1]
            simp only [List.length_cons]
            omega
          · right
            rcases hoff with h0 | hdel
            · have h0' : q.1 + (0 + r0.length + 1) = 0 := h0
              exact absurd h0' (by omega)
            · have hdel' : rest[q.1 + (0 + r0.length + 1) - 1]? = some delim := hdel
              rw [hp1]
              have hd : q.1 + (0 + (b :: r0).length + 1) - 1
                  = (q.1 + (0 + r0.length + 1) - 1) + 1 := by
                simp only [List.length_cons]
                omega
              rw [hd, List.getElem?_cons_succ]
              exact hdel'

/-- C10: every candidate yielded by the extractor is faithful to the image —
its bytes are exactly the image bytes starting at its offset, the run fits
inside the image, offsets strictly ascend in yield order, and every offset
is either 0 or the position immediately after a delimiter byte; the same
holds both for the raw runs and for the filtered candidate strings. -/
theorem C10_extractor_faithful (delim t : Nat) (img : List Nat) :
    ((∀ p ∈ iter_cstrings_raw delim img,
        p.2 = (img.drop p.1).take p.2.length ∧
        p.1 + p.2.length ≤ img.length ∧
        (p.1 = 0 ∨ img[p.1 - 1]? = some delim)) ∧
      List.Pairwise (fun p q : Nat × List Nat => p.1 < q.1) (iter_cstrings_raw delim img)) ∧
    ((∀ p ∈ iter_cstrings t img,
        p.2 = (img.drop p.1).take p.2.length ∧
        p.1 + p.2.length ≤ img.length ∧
        (p.1 = 0 ∨ img[p.1 - 1]? = some 0)) ∧
      List.Pairwise (fun p q : Nat × List Nat => p.1 < q.1) (iter_cstrings t img)) := by
  refine ⟨⟨fun p hp => raw_elem delim img p hp, attachPos_fst_lt _ 0⟩,
    fun p hp => raw_elem 0 img p (List.mem_of_mem_filter hp), ?_⟩
  exact (attachPos_fst_lt _ 0).sublist (List.filter_sublist _)

theorem C10_extractor_faithful_witness :
    ((2, [66, 66]) : Nat × List Nat).2
        = (([65, 0, 66, 66] : List Nat).drop 2).take 2 ∧
      2 + 2 ≤ ([65, 0, 66, 66] : List Nat).length ∧
      ((2 : Nat) = 0 ∨ ([65, 0, 66, 66] : List Nat)[2 - 1]? = some 0) :=
  (C10_extractor_faithful 0 10 [65, 0, 66, 66]).1.1 (2, [66, 66]) (by decide)

end Based
